import Mathlib

/-!
# tasknc: the configuration parser of `src/configure.c`

A shallow embedding of the configuration subsystem of tasknc: the settings
store (`struct config`), the key/value setter `config_set`, the line
tokenizer and dispatcher `config_parse_string`, the line reader
`config_parse_file`, the version accessor and the dump.

Conventions of the embedding

* A C string is the list of its characters before the terminating NUL
  (`CStr`); the end of the list plays the role of the terminator.
* A `char *` field that may be `NULL` is an `Option CStr`, a `FILE *` an
  `Option FILE`.
* `int` values are `Int`; the C return codes keep their names.
* Calls that reach outside the store (`free` of an owned field, `fclose`,
  `fopen`, `task_version`, output to a stream) are recorded, in program
  order, in the list of `Event`s a function returns next to its result; the
  answers of `fopen` and `task_version` are parameters.
* The `while` loop of `config_parse_string` is a step function iterated with
  fuel; running out of fuel is the result `none`.
* An argument of a line is the `len` characters that `strncpy` copies into the
  buffer made by `calloc(len, ...)`. The buffer holds no terminator of its
  own: what a string read finds behind it is the parameter `past` of
  `config_parse_string_past`. `config_parse_string` is the case in which a
  NUL lies behind every buffer, as it does with the GNU allocator for an
  argument shorter than 24 characters, `set` and the recognized keys among
  them.
* Sizes and offsets are natural numbers. The one size whose `int` range is
  followed is `linelen` of `config_parse_file`, which the code doubles: a
  doubling past `INT_MAX` is the result `Run.overflow`. Allocation is taken to
  succeed.
-/

namespace Tasknc

/-- Contents of a NUL-terminated C string: its characters before the NUL. -/
abbrev CStr := List Char

/-- Identity of an open stdio stream (the target of a non-NULL `FILE *`). -/
abbrev FILE := Nat

/-- Calls of `configure.c` whose effect lies outside `struct config`:
`free(s)` of an owned string, `fclose(f)`, `fopen(path, "a")` with what it
returned, `task_version()` with what it returned, and the text one `printf`
or `fprintf` call writes to a stream. -/
inductive Event where
  | free (s : CStr)
  | fclose (f : FILE)
  | fopen (path : CStr) (res : Option FILE)
  | task_version (res : Option (Int × Int × Int))
  | write (f : FILE) (text : CStr)
  deriving DecidableEq

/-- The standard output stream, to which `printf` writes. -/
def stdout : FILE := 1

/-! ## Error codes (configure.c lines 14-18) -/

def CONFIG_SUCCESS : Int := 0

def CONFIG_ERROR_ARGC : Int := 2

def CONFIG_CMD_UNHANDLED : Int := 3

def CONFIG_VAR_UNHANDLED : Int := 4

/-! ## The settings store (configure.c lines 20-42) -/

/-- The configuration struct, field for field. -/
structure config where
  debug : Bool
  filter : Option CStr
  sort : Option CStr
  task_format : Option CStr
  logfd : Option FILE
  nc_timeout : Int
  version : Option (Int × Int × Int)
  deriving DecidableEq

/-- Result of a call that returns an `int` and may mutate the store: the
return code, the store after the call, and the outside calls it made. -/
structure Outcome where
  ret : Int
  conf : config
  events : List Event
  deriving DecidableEq

/-- The store made by `default_config`: `calloc` zeroes every field, then
five of them are assigned. -/
def default_config : config :=
  { debug := false
    nc_timeout := 1000
    filter := some "status:pending".toList
    sort := some "n".toList
    task_format := some "%3n (%-10p) %d".toList
    logfd := none
    version := none }

/-- Modelled from the spec: the macro `check_free` of `common.h`, which is not
among the sources; an owned value is released when it is present. -/
def check_free (p : Option CStr) : List Event :=
  match p with
  | none => []
  | some s => [Event.free s]

/-- Modelled from the spec: the macro `check_fclose` of `common.h`, which is
not among the sources; a log handle is closed when one is open. -/
def check_fclose (f : Option FILE) : List Event :=
  match f with
  | none => []
  | some h => [Event.fclose h]

def conf_get_nc_timeout (conf : config) : Int := conf.nc_timeout

def conf_get_logfd (conf : config) : Option FILE := conf.logfd

def conf_get_filter (conf : config) : Option CStr := conf.filter

/-- Set task filter: `check_free(conf->filter); conf->filter = strdup(filter)`. -/
def conf_set_filter (conf : config) (filter : CStr) : config × List Event :=
  ({ conf with filter := some filter }, check_free conf.filter)

def conf_get_sort (conf : config) : Option CStr := conf.sort

/-- Set task sort. -/
def conf_set_sort (conf : config) (sort : CStr) : config × List Event :=
  ({ conf with sort := some sort }, check_free conf.sort)

def conf_get_task_format (conf : config) : Option CStr := conf.task_format

/-- Set task format. -/
def conf_set_task_format (conf : config) (task_format : CStr) : config × List Event :=
  ({ conf with task_format := some task_format }, check_free conf.task_format)

def conf_get_debug (conf : config) : Bool := conf.debug

/-! ## Integer conversion (configure.c lines 55-61) -/

/-- White space in the sense of `isspace` in the C locale. -/
def isspace (c : Char) : Bool :=
  c = ' ' || c = '\t' || c = '\n' || c = '\x0b' || c = '\x0c' || c = '\r'

/-- Decimal digit in the sense of `isdigit`. -/
def isdigit (c : Char) : Bool := decide ('0' ≤ c ∧ c ≤ '9')

/-- Value of a run of decimal digits, most significant first. -/
def digits_value (ds : List Char) : Nat :=
  ds.foldl (fun a c => 10 * a + (c.toNat - '0'.toNat)) 0

def INT_MIN : Int := -2147483648

def INT_MAX : Int := 2147483647

def LONG_MIN : Int := -9223372036854775808

def LONG_MAX : Int := 9223372036854775807

/-- Storing the result of a `%d` conversion into an `int`: the GNU C library
converts with `strtol`, which clamps to the range of `long`, and assigns the
`long` to the `int`, which keeps the low 32 bits. A value in the range of
`int` is stored as it is. -/
def store_int (x : Int) : Int :=
  let y := max LONG_MIN (min LONG_MAX x)
  (y - INT_MIN) % 4294967296 + INT_MIN

/-- The C library call `sscanf(str, "%d", &ret)`, as the value stored through
`&ret`, or `none` when the conversion fails and nothing is stored: white space
is skipped, an optional sign is read, then a non-empty run of decimal digits. -/
def sscanf_d (str : CStr) : Option Int :=
  let s := str.dropWhile isspace
  let neg := s.head? = some '-'
  let s := if s.head? = some '-' ∨ s.head? = some '+' then s.tail else s
  let ds := s.takeWhile isdigit
  if ds = [] then none
  else some (store_int (if neg then -(digits_value ds : Int) else (digits_value ds : Int)))

/-- Function to parse an integer from a string: `ret` starts at 0 and is
overwritten only by a successful conversion. -/
def config_parse_int (str : CStr) : Int :=
  (sscanf_d str).getD 0

/-- The text begins with an integer in the sense of the `%d` conversion:
after optional white space and an optional sign there is a decimal digit. -/
def begins_with_integer (str : CStr) : Bool :=
  let s := str.dropWhile isspace
  let s := if s.head? = some '-' ∨ s.head? = some '+' then s.tail else s
  match s with
  | [] => false
  | c :: _ => isdigit c

/-! ## Setting a variable (configure.c lines 63-86) -/

/-- Function to set a config variable. The C pair `(argc, argv)` is the list
`argv`, with `argc` its length; `strcmp(a, b) == 0` is equality of contents.
`fopen p` is what `fopen(p, "a")` returns. -/
def config_set (fopen : CStr → Option FILE) (conf : config) (argv : List CStr) : Outcome :=
  let argc := argv.length
  if argc ≠ 2 then ⟨CONFIG_ERROR_ARGC, conf, []⟩
  else
    let key := argv.getD 0 []
    let value := argv.getD 1 []
    if key = "nc_timeout".toList then
      ⟨CONFIG_SUCCESS, { conf with nc_timeout := config_parse_int value }, []⟩
    else if key = "logpath".toList then
      ⟨CONFIG_SUCCESS, { conf with logfd := fopen value },
        check_fclose conf.logfd ++ [Event.fopen value (fopen value)]⟩
    else if key = "filter".toList then
      ⟨CONFIG_SUCCESS, (conf_set_filter conf value).1, (conf_set_filter conf value).2⟩
    else if key = "sort".toList then
      ⟨CONFIG_SUCCESS, (conf_set_sort conf value).1, (conf_set_sort conf value).2⟩
    else if key = "task_format".toList then
      ⟨CONFIG_SUCCESS, (conf_set_task_format conf value).1, (conf_set_task_format conf value).2⟩
    else ⟨CONFIG_VAR_UNHANDLED, conf, []⟩

/-! ## Tokenizing and dispatching one line (configure.c lines 88-157) -/

/-- The GNU call `strchrnul(s, c)`, as the offset from `s` of the first `c`,
or of the terminator when `s` has no `c`. -/
def strchrnul : CStr → Char → Nat
  | [], _ => 0
  | x :: xs, c => if x = c then 0 else strchrnul xs c + 1

/-- State of the tokenizing loop: the text from the scan pointer `str` to the
terminator, and the arguments stored so far (`argc` is their number). -/
structure Scan where
  str : CStr
  argv : List CStr
  deriving DecidableEq

/-- One pass through the body of the `while (*str != 0)` loop (lines 101-137);
`none` when the loop is left, by its condition or by `break`. An argument is
the `len` characters that `strncpy` copies. -/
def scan_step (s : Scan) : Option Scan :=
  match s.str with
  | [] => none
  | c :: rest =>
    -- check for comment
    if c = '#' then none
    -- check for whitespace
    else if c = ' ' ∨ c = '\t' ∨ c = '\n' then some { s with str := rest }
    else
      -- get this arg
      let len := if c = '"' then strchrnul rest '"' else strchrnul (c :: rest) ' '
      let str := if c = '"' then rest else c :: rest
      if len = 0 then some { s with str := str }
      else
        -- move to next field
        let e := if str.head? = some '"' then len + 1 else len
        some { str := str.drop e, argv := s.argv ++ [str.take len] }

/-- The loop, run for at most `fuel` passes: the arguments on leaving it. -/
def scan_loop : Nat → Scan → Option (List CStr)
  | 0, _ => none
  | fuel + 1, s =>
    match scan_step s with
    | none => some s.argv
    | some s1 => scan_loop fuel s1

/-- The loop run from state `s` with one pass more than there are characters
left, which is enough for it to finish (`scan_run_isSome`). -/
def scan_run (s : Scan) : Option (List CStr) :=
  scan_loop (s.str.length + 1) s

/-- Lines 91-137 of `config_parse_string`: the line is cut at its first
newline, then split into individual args. -/
def config_parse_string_argv (str : CStr) : Option (List CStr) :=
  scan_run ⟨str.takeWhile (fun c => c ≠ '\n'), []⟩

/-- Parse a config string and evaluate its instructions, in the case that a
NUL lies behind the buffer of every argument, so that each argument is read
as the characters copied into it; `config_parse_string_past` is the general
case, of which this is the instance `past = fun _ => []`
(`config_parse_string_past_nil`). -/
def config_parse_string (fopen : CStr → Option FILE) (conf : config) (str : CStr) :
    Option Outcome :=
  match config_parse_string_argv str with
  | none => none
  | some argv =>
    -- pass arguments to next function
    match argv with
    | [] => some ⟨1, conf, []⟩
    | a0 :: rest =>
      if a0 = "set".toList then some (config_set fopen conf rest)
      else some ⟨1, conf, []⟩

/-- The arguments `argv[n]`, `argv[n+1]`, ... as `strcmp`, `sscanf`, `fopen`
and `strdup` read them. The buffer of an argument is made by
`calloc(len, ...)` and filled by `strncpy(..., len)` (lines 129-130): it holds
the `len` characters and no terminator, so a string read runs on into the
memory behind it. `past n` is what lies behind the buffer of `argv[n]`, up to
the first NUL. -/
def argv_as_read (past : Nat → CStr) : Nat → List CStr → List CStr
  | _, [] => []
  | n, a :: rest => (a ++ past n) :: argv_as_read past (n + 1) rest

/-- Parse a config string and evaluate its instructions, with the arguments
read as the code reads them: each followed by what lies behind its buffer. -/
def config_parse_string_past (past : Nat → CStr) (fopen : CStr → Option FILE) (conf : config)
    (str : CStr) : Option Outcome :=
  match config_parse_string_argv str with
  | none => none
  | some argv =>
    -- pass arguments to next function
    match argv_as_read past 0 argv with
    | [] => some ⟨1, conf, []⟩
    | a0 :: rest =>
      if a0 = "set".toList then some (config_set fopen conf rest)
      else some ⟨1, conf, []⟩

/-- Get version. `task_version` is what the call `task_version()` of `task.c`
returns when it is made: a version, or `none` for a NULL pointer. -/
def conf_get_version (task_version : Option (Int × Int × Int)) (conf : config) :
    Option (Int × Int × Int) × config × List Event :=
  if conf.version = none then
    (task_version, { conf with version := task_version }, [Event.task_version task_version])
  else (conf.version, conf, [])

/-- The first `n` calls of `conf_get_version` on a store, after the outside
calls `evs`: the store and the outside calls at the end. `provider k` is what
`task_version()` returns when it is invoked after `k` earlier outside calls. -/
def conf_get_version_calls (provider : Nat → Option (Int × Int × Int)) :
    Nat → config → List Event → config × List Event
  | 0, conf, evs => (conf, evs)
  | n + 1, conf, evs =>
    let r := conf_get_version (provider evs.length) conf
    conf_get_version_calls provider n r.2.1 (evs ++ r.2.2)

/-- The conversion `%d` of `printf`: the decimal numeral of an `int`. -/
def fmt_d (x : Int) : CStr := (toString x).toList

/-- The conversion `%s` of `printf`; the GNU C library prints `(null)` for a
NULL pointer. -/
def fmt_s (s : Option CStr) : CStr := s.getD "(null)".toList

/-- Dump config to file. The first argument is what `task_version()` returns
if `conf_get_version` calls it. -/
def dump_config_file (task_version : Option (Int × Int × Int)) (out : FILE) (conf : config) :
    config × List Event :=
  let l1 := Event.write out
    ("debug".toList ++ ":\t\t".toList ++ fmt_d (if conf_get_debug conf then 1 else 0) ++ "\n".toList)
  let l2 := Event.write out
    ("nc_timeout".toList ++ ":\t".toList ++ fmt_d (conf_get_nc_timeout conf) ++ "\n".toList)
  let v := conf_get_version task_version conf
  let conf := v.2.1
  let l3 := match v.1 with
    | some (a, b, c) =>
      [Event.write stdout ("version".toList ++ ":\t".toList ++ fmt_d a ++ ".".toList ++ fmt_d b
        ++ ".".toList ++ fmt_d c ++ "\n".toList)]
    | none => []
  let l4 := Event.write out
    ("filter".toList ++ ":\t\t'".toList ++ fmt_s (conf_get_filter conf) ++ "'\n".toList)
  let l5 := Event.write out
    ("sort".toList ++ ":\t\t'".toList ++ fmt_s (conf_get_sort conf) ++ "'\n".toList)
  let l6 := Event.write out
    ("task_format".toList ++ ":\t'".toList ++ fmt_s (conf_get_task_format conf) ++ "'\n".toList)
  (conf, [l1, l2] ++ v.2.2 ++ l3 ++ [l4, l5, l6])

/-! ## Command-line options (main.c lines 46-72) -/

/-- What one pass of the option loop of `main` does to the store: for the
option character `c` that `getopt_long` returned, with its argument `optarg`.
Only `-f` and `-s` touch the store; the other options choose the action to
run or print the help. -/
def main_option (c : Char) (optarg : CStr) (conf : config) : config × List Event :=
  if c = 'f' then conf_set_filter conf optarg
  else if c = 's' then conf_set_sort conf optarg
  else (conf, [])

/-! ## Reading a file line by line (configure.c lines 159-183) -/

/-- A stdio input stream: the characters not read yet and the end-of-file
indicator that `feof` tests. -/
structure Stream where
  rest : List Char
  eof : Bool
  deriving DecidableEq

/-- The characters one call of `fgets` stores when it may store up to `k`: it
stops after a newline, after `k` characters, or at the end of the stream. -/
def fgets_chars : Nat → List Char → CStr
  | 0, _ => []
  | _ + 1, [] => []
  | k + 1, c :: cs => if c = '\n' then [c] else c :: fgets_chars k cs

/-- The C library call `fgets(buf, n, file)`, for `n` at least 2, on a stream
without read errors: the string stored in `buf`, or `none` for the NULL that
is returned when the end of the stream is met before any character; and the
stream after the call. The end-of-file indicator is set when the read stops
for lack of characters. -/
def fgets (n : Nat) (file : Stream) : Option CStr × Stream :=
  let got := fgets_chars (n - 1) file.rest
  let rest := file.rest.drop got.length
  if got = [] then (none, ⟨rest, true⟩)
  else (some got, ⟨rest, file.eof || (decide (got.length < n - 1) && got.getLast? != some '\n')⟩)

/-- How a loop of `config_parse_file` ends: with a value; in the undefined
behaviour of the signed overflow of `2*linelen`; or, in the embedding only,
with its fuel used up. -/
inductive Run (α : Type) where
  | done (a : α)
  | overflow
  | no_fuel
  deriving DecidableEq

/-- The inner loop of `config_parse_file` (lines 166-174), check for longer
lines, run for at most `fuel` passes: the line buffer, `linelen` and the
stream when it is left. `linelen` is an `int`. -/
def config_parse_file_longer : Nat → CStr → Nat → Stream → Run (CStr × Nat × Stream)
  | 0, _, _, _ => Run.no_fuel
  | fuel + 1, line, linelen, file =>
    if '\n' ∈ line then Run.done (line, linelen, file)
    else
      match fgets (linelen - 1) file with
      | (none, file1) => Run.done (line, linelen, file1)
      | (some tmp, file1) =>
        if INT_MAX < 2 * (linelen : Int) then Run.overflow
        else config_parse_file_longer fuel (line ++ tmp.take (linelen - 1)) (2 * linelen) file1

/-- What `config_parse_file` has done so far: the store, the outside calls,
and the lines handed to `config_parse_string`, in order. -/
structure FileRun where
  conf : config
  events : List Event
  handed : List CStr
  deriving DecidableEq

/-- The outer loop of `config_parse_file` (lines 164-179), run for at most
`fuel` passes. After `memset` and after `calloc` the line buffer is the empty
string, which is what it holds when `fgets` returns NULL. -/
def config_parse_file_loop (fopen : CStr → Option FILE) :
    Nat → Nat → Stream → FileRun → Run FileRun
  | 0, _, _, _ => Run.no_fuel
  | fuel + 1, linelen, file, st =>
    let r := fgets (linelen - 1) file
    if r.1 = none ∧ r.2.eof = true then Run.done st
    else
      match config_parse_file_longer (r.2.rest.length + 1) (r.1.getD []) linelen r.2 with
      | Run.done (line, linelen1, file1) =>
        -- parse line
        match config_parse_string fopen st.conf line with
        | some o =>
          config_parse_file_loop fopen fuel linelen1 file1
            ⟨o.conf, st.events ++ o.events, st.handed ++ [line]⟩
        | none => Run.no_fuel
      | Run.overflow => Run.overflow
      | Run.no_fuel => Run.no_fuel

/-- Parse a config file descriptor by handling each of its strings: the
return code with the store, the outside calls and the lines handed over. -/
def config_parse_file (fopen : CStr → Option FILE) (conf : config) (file : Stream) :
    Run (Int × FileRun) :=
  match config_parse_file_loop fopen (file.rest.length + 1) 256 file ⟨conf, [], []⟩ with
  | Run.done st => Run.done (CONFIG_SUCCESS, st)
  | Run.overflow => Run.overflow
  | Run.no_fuel => Run.no_fuel

/-- Following the words of the spec, the logical lines of a stream content
after the run `cur` already read: every maximal run of characters up to and
including a newline, plus one final line for trailing unterminated content
when that is not empty. -/
def logical_lines_from : CStr → List Char → List CStr
  | cur, [] => if cur = [] then [] else [cur]
  | cur, c :: cs =>
    if c = '\n' then (cur ++ [c]) :: logical_lines_from [] cs
    else logical_lines_from (cur ++ [c]) cs

/-- Following the words of the spec, the logical lines of a stream content. -/
def logical_lines (content : List Char) : List CStr :=
  logical_lines_from [] content

/-! ## The loop: progress and fuel -/

theorem scan_step_length (s s1 : Scan) (h : scan_step s = some s1) :
    s1.str.length < s.str.length := by
  obtain ⟨str, argv⟩ := s
  cases str with
  | nil => simp [scan_step] at h
  | cons c rest =>
    simp only [scan_step] at h
    split_ifs at h <;> simp only [Option.some.injEq] at h <;> subst h <;>
      simp_all [List.length_drop, strchrnul] <;> omega

theorem scan_loop_fuel (n : Nat) : ∀ (s : Scan) (m : Nat), s.str.length < n → s.str.length < m →
    scan_loop n s = scan_loop m s := by
  induction n with
  | zero => intro s m h; omega
  | succ n ih =>
    intro s m hn hm
    cases m with
    | zero => omega
    | succ m =>
      simp only [scan_loop]
      cases hs : scan_step s with
      | none => rfl
      | some s1 =>
        have := scan_step_length s s1 hs
        exact ih s1 m (by omega) (by omega)

theorem scan_run_done (s : Scan) (h : scan_step s = none) : scan_run s = some s.argv := by
  simp [scan_run, scan_loop, h]

theorem scan_run_step (s s1 : Scan) (h : scan_step s = some s1) : scan_run s = scan_run s1 := by
  have hl := scan_step_length s s1 h
  simp only [scan_run, scan_loop, h]
  exact scan_loop_fuel s.str.length s1 (s1.str.length + 1) hl (by omega)

theorem scan_run_isSome (n : Nat) : ∀ s : Scan, s.str.length < n → ∃ argv, scan_run s = some argv := by
  induction n with
  | zero => intro s h; omega
  | succ n ih =>
    intro s hn
    cases hs : scan_step s with
    | none => exact ⟨s.argv, scan_run_done s hs⟩
    | some s1 =>
      have := scan_step_length s s1 hs
      rw [scan_run_step s s1 hs]
      exact ih s1 (by omega)

/-! ## The loop on the shapes of text it meets -/

theorem strchrnul_append (c : Char) (tok rest : CStr) (h : c ∉ tok) :
    strchrnul (tok ++ rest) c = tok.length + strchrnul rest c := by
  induction tok with
  | nil => simp
  | cons x xs ih =>
    have hx : ¬ x = c := fun e => h (by simp [e])
    have hxs : c ∉ xs := fun e => h (by simp [e])
    simp [strchrnul, hx, ih hxs]
    omega

theorem cut_eq_self (l : CStr) (h : '\n' ∉ l) : l.takeWhile (fun c => c ≠ '\n') = l := by
  rw [List.takeWhile_eq_self_iff]
  intro x hx
  have : ¬ x = '\n' := fun e => h (e ▸ hx)
  simpa using this

theorem scan_run_nil (argv : List CStr) : scan_run ⟨[], argv⟩ = some argv :=
  scan_run_done _ rfl

theorem scan_run_comment (rest : CStr) (argv : List CStr) :
    scan_run ⟨'#' :: rest, argv⟩ = some argv :=
  scan_run_done _ (by simp [scan_step])

theorem scan_run_space (c : Char) (rest : CStr) (argv : List CStr)
    (hc : c = ' ' ∨ c = '\t' ∨ c = '\n') :
    scan_run ⟨c :: rest, argv⟩ = scan_run ⟨rest, argv⟩ := by
  apply scan_run_step
  rcases hc with h | h | h <;> subst h <;> simp [scan_step]

/-- An unquoted argument: it starts at a character that is no `#`, no white
space and no quote, and runs to the next space or to the end of the line. -/
theorem scan_run_bare (c : Char) (t rest : CStr) (argv : List CStr)
    (h1 : c ≠ '#') (h2 : c ≠ '"') (h3 : c ≠ '\t') (h4 : c ≠ '\n')
    (hsp : ' ' ∉ c :: t) (hrest : strchrnul rest ' ' = 0) :
    scan_run ⟨c :: t ++ rest, argv⟩ = scan_run ⟨rest, argv ++ [c :: t]⟩ := by
  apply scan_run_step
  have h5 : ¬ c = ' ' := fun e => hsp (by simp [e])
  have hlen : strchrnul (c :: (t ++ rest)) ' ' = t.length + 1 := by
    have := strchrnul_append ' ' (c :: t) rest hsp
    simp only [List.cons_append, List.length_cons] at this
    omega
  simp [scan_step, h1, h2, h3, h4, h5, hlen]

/-- A quoted argument with a closing quote: the argument is the text between
the quotes, and the scan pointer is left on the closing quote. -/
theorem scan_run_quoted (v rest : CStr) (argv : List CStr) (hne : v ≠ []) (hq : '"' ∉ v) :
    scan_run ⟨'"' :: (v ++ '"' :: rest), argv⟩ = scan_run ⟨'"' :: rest, argv ++ [v]⟩ := by
  apply scan_run_step
  have hlen : strchrnul (v ++ '"' :: rest) '"' = v.length := by
    rw [strchrnul_append '"' v _ hq]; simp [strchrnul]
  cases v with
  | nil => exact absurd rfl hne
  | cons x xs =>
    have hx : ¬ x = '"' := fun e => hq (by simp [e])
    simp only [List.length_cons, List.cons_append] at hlen
    simp [scan_step, hlen, hx]

/-- A quote that ends the line opens an argument of length zero, which is dropped. -/
theorem scan_run_last_quote (argv : List CStr) : scan_run ⟨['"'], argv⟩ = some argv := by
  have hstep : scan_step ⟨['"'], argv⟩ = some ⟨[], argv⟩ := by
    simp [scan_step, strchrnul]
  rw [scan_run_step _ _ hstep, scan_run_nil]

/-- An unquoted word followed by the end of the line or by a space. -/
theorem scan_run_word (w rest : CStr) (argv : List CStr) (hne : w ≠ [])
    (h1 : w.head? ≠ some '#') (h2 : w.head? ≠ some '"') (h3 : w.head? ≠ some '\t')
    (h4 : w.head? ≠ some '\n') (hsp : ' ' ∉ w) (hrest : strchrnul rest ' ' = 0) :
    scan_run ⟨w ++ rest, argv⟩ = scan_run ⟨rest, argv ++ [w]⟩ := by
  cases w with
  | nil => exact absurd rfl hne
  | cons c t =>
    simp only [List.head?_cons, ne_eq, Option.some.injEq] at h1 h2 h3 h4
    exact scan_run_bare c t rest argv h1 h2 h3 h4 hsp hrest

/-- The command word `set` and the space after it. -/
theorem scan_run_set (rest : CStr) (argv : List CStr) :
    scan_run ⟨"set ".toList ++ rest, argv⟩ = scan_run ⟨rest, argv ++ ["set".toList]⟩ := by
  have h := scan_run_word "set".toList (' ' :: rest) argv (by decide) (by decide) (by decide)
    (by decide) (by decide) (by decide) (by simp [strchrnul])
  rw [scan_run_space ' ' rest _ (Or.inl rfl)] at h
  exact h

/-- Arguments of the line `set k "v"` for an unquoted word `k` and a non-empty
`v` without quote and newline. -/
theorem argv_set_quoted (k v : CStr) (hk : k ≠ [])
    (hk1 : k.head? ≠ some '#') (hk2 : k.head? ≠ some '"') (hk3 : k.head? ≠ some '\t')
    (hksp : ' ' ∉ k) (hknl : '\n' ∉ k) (hne : v ≠ []) (hq : '"' ∉ v) (hnl : '\n' ∉ v) :
    config_parse_string_argv ("set ".toList ++ k ++ " \"".toList ++ v ++ "\"".toList)
      = some ["set".toList, k, v] := by
  have hk4 : k.head? ≠ some '\n' := by
    cases k with
    | nil => exact absurd rfl hk
    | cons c t =>
      have hc : ¬ c = '\n' := fun e => hknl (by simp [e])
      simpa using hc
  have hline : "set ".toList ++ k ++ " \"".toList ++ v ++ "\"".toList
      = "set ".toList ++ (k ++ (' ' :: ('"' :: (v ++ '"' :: [])))) := by
    simp [List.append_assoc]
  have hcut : '\n' ∉ "set ".toList ++ (k ++ (' ' :: ('"' :: (v ++ '"' :: [])))) := by
    simp [hknl, hnl]
  rw [hline]
  unfold config_parse_string_argv
  rw [cut_eq_self _ hcut, scan_run_set,
    scan_run_word k _ _ hk hk1 hk2 hk3 hk4 hksp (by simp [strchrnul]),
    scan_run_space ' ' _ _ (Or.inl rfl), scan_run_quoted v [] _ hne hq, scan_run_last_quote]
  rfl

/-- Leading blanks, then `#`: the loop stores nothing, also when the cut at
the first newline removes the `#`. -/
theorem scan_run_blank_comment (rest : CStr) (argv : List CStr) :
    ∀ ws : CStr, (∀ c ∈ ws, c = ' ' ∨ c = '\t' ∨ c = '\n') →
      scan_run ⟨(ws ++ '#' :: rest).takeWhile (fun c => c ≠ '\n'), argv⟩ = some argv := by
  intro ws
  induction ws with
  | nil =>
    intro _
    have h : ('#' :: rest).takeWhile (fun c => c ≠ '\n')
        = '#' :: rest.takeWhile (fun c => c ≠ '\n') := by
      simp [List.takeWhile_cons]
    rw [List.nil_append, h]
    exact scan_run_comment _ _
  | cons c ws ih =>
    intro hws
    have hc := hws c (by simp)
    have hrest : ∀ d ∈ ws, d = ' ' ∨ d = '\t' ∨ d = '\n' := fun d hd => hws d (by simp [hd])
    by_cases hnl : c = '\n'
    · subst hnl
      simp [List.takeWhile_cons, scan_run_nil]
    · have h : (c :: ws ++ '#' :: rest).takeWhile (fun c => c ≠ '\n')
          = c :: (ws ++ '#' :: rest).takeWhile (fun c => c ≠ '\n') := by
        simp [List.takeWhile_cons, hnl]
      rw [h, scan_run_space c _ _ hc]
      exact ih hrest

/-! ## Integer conversion on decimal numerals -/

theorem digits_value_foldl (ds : List Char) : ∀ a : Nat,
    ds.foldl (fun a c => 10 * a + (c.toNat - '0'.toNat)) a = a * 10 ^ ds.length + digits_value ds := by
  induction ds with
  | nil => intro a; simp [digits_value]
  | cons d ds ih =>
    intro a
    simp only [List.foldl_cons, List.length_cons, digits_value]
    rw [ih, ih (10 * 0 + (d.toNat - '0'.toNat))]
    ring

theorem digits_value_cons (d : Char) (ds : List Char) :
    digits_value (d :: ds) = (d.toNat - '0'.toNat) * 10 ^ ds.length + digits_value ds := by
  have h := digits_value_foldl ds (10 * 0 + (d.toNat - '0'.toNat))
  simpa [digits_value] using h

theorem digitChar_isdigit (k : Nat) (hk : k < 10) :
    isdigit (Nat.digitChar k) = true ∧ (Nat.digitChar k).toNat - '0'.toNat = k := by
  interval_cases k <;> decide

theorem toDigitsCore_value (fuel : Nat) : ∀ (n : Nat) (ds : List Char), n < fuel →
    (∀ c ∈ ds, isdigit c = true) →
    (∀ c ∈ Nat.toDigitsCore 10 fuel n ds, isdigit c = true)
      ∧ Nat.toDigitsCore 10 fuel n ds ≠ []
      ∧ digits_value (Nat.toDigitsCore 10 fuel n ds) = n * 10 ^ ds.length + digits_value ds := by
  induction fuel with
  | zero => intro n ds h; omega
  | succ fuel ih =>
    intro n ds hn hds
    have hd := digitChar_isdigit (n % 10) (Nat.mod_lt n (by decide))
    have hall : ∀ c ∈ Nat.digitChar (n % 10) :: ds, isdigit c = true := by
      intro c hc
      rcases List.mem_cons.mp hc with h | h
      · rw [h]; exact hd.1
      · exact hds c h
    have hval : digits_value (Nat.digitChar (n % 10) :: ds)
        = (n % 10) * 10 ^ ds.length + digits_value ds := by
      rw [digits_value_cons, hd.2]
    simp only [Nat.toDigitsCore]
    by_cases h0 : n / 10 = 0
    · rw [if_pos h0]
      refine ⟨hall, by simp, ?_⟩
      rw [hval, Nat.mod_eq_of_lt (by omega)]
    · rw [if_neg h0]
      obtain ⟨a, b, c⟩ := ih (n / 10) (Nat.digitChar (n % 10) :: ds) (by omega) hall
      refine ⟨a, b, ?_⟩
      rw [c, hval, List.length_cons, pow_succ]
      have hn10 := Nat.div_add_mod n 10
      calc n / 10 * (10 ^ ds.length * 10) + (n % 10 * 10 ^ ds.length + digits_value ds)
          = (10 * (n / 10) + n % 10) * 10 ^ ds.length + digits_value ds := by ring
        _ = n * 10 ^ ds.length + digits_value ds := by rw [hn10]

/-- The decimal numeral of `n`: a non-empty run of digits whose value is `n`. -/
theorem toDigits_value (n : Nat) :
    (∀ c ∈ Nat.toDigits 10 n, isdigit c = true) ∧ Nat.toDigits 10 n ≠ []
      ∧ digits_value (Nat.toDigits 10 n) = n := by
  have h := toDigitsCore_value (n + 1) n [] (Nat.lt_succ_self n) (by simp)
  simpa [Nat.toDigits, digits_value] using h

theorem store_int_of_range (x : Int) (h1 : INT_MIN ≤ x) (h2 : x ≤ INT_MAX) : store_int x = x := by
  simp only [store_int, INT_MIN, INT_MAX, LONG_MIN, LONG_MAX] at *
  rw [min_eq_right (by omega), max_eq_right (by omega)]
  omega

theorem isdigit_not_space_sign (c : Char) (h : isdigit c = true) :
    isspace c = false ∧ c ≠ '-' ∧ c ≠ '+' := by
  refine ⟨?_, ?_, ?_⟩
  · by_contra hs
    simp only [isspace, Bool.not_eq_false, Bool.or_eq_true, decide_eq_true_eq] at hs
    rcases hs with ((((rfl | rfl) | rfl) | rfl) | rfl) | rfl <;> exact absurd h (by decide)
  · rintro rfl; exact absurd h (by decide)
  · rintro rfl; exact absurd h (by decide)

theorem takeWhile_isdigit_append (ds rest : CStr) (hds : ∀ c ∈ ds, isdigit c = true)
    (hrest : ∀ c ∈ rest.head?, isdigit c = false) :
    (ds ++ rest).takeWhile isdigit = ds := by
  rw [List.takeWhile_append_of_pos hds]
  cases rest with
  | nil => simp
  | cons r rs =>
    have : isdigit r = false := hrest r (by simp)
    simp [List.takeWhile_cons, this]

/-- The `%d` conversion of an unsigned and of a negative decimal numeral
followed by text that does not go on with a digit. -/
theorem sscanf_d_digits (d : Char) (ds rest : CStr) (hds : ∀ c ∈ d :: ds, isdigit c = true)
    (hrest : ∀ c ∈ rest.head?, isdigit c = false) :
    sscanf_d (d :: ds ++ rest) = some (store_int (digits_value (d :: ds)))
      ∧ sscanf_d ('-' :: (d :: ds ++ rest)) = some (store_int (-(digits_value (d :: ds) : Int))) := by
  have hd := isdigit_not_space_sign d (hds d (by simp))
  have htake := takeWhile_isdigit_append (d :: ds) rest hds hrest
  simp only [List.cons_append] at htake
  constructor
  · simp [sscanf_d, hd.1, hd.2.1, hd.2.2, htake]
  · have hm : isspace '-' = false := by decide
    simp [sscanf_d, hm, htake]

/-- Text that does not begin with an integer converts to 0. -/
theorem config_parse_int_junk (junk : CStr) (h : begins_with_integer junk = false) :
    config_parse_int junk = 0 := by
  unfold config_parse_int sscanf_d
  unfold begins_with_integer at h
  simp only at h ⊢
  generalize (if (junk.dropWhile isspace).head? = some '-' ∨ (junk.dropWhile isspace).head? = some '+'
    then (junk.dropWhile isspace).tail else junk.dropWhile isspace) = u at h ⊢
  cases u with
  | nil => simp
  | cons c t =>
    simp only at h
    simp [List.takeWhile_cons, h]

/-! ## Version caching -/

/-- Calls of `conf_get_version` add outside calls `new` to those made before:
none when the store holds a version, at most one for each call, and each of
them but the last an invocation of the provider that failed. -/
theorem conf_get_version_calls_events (provider : Nat → Option (Int × Int × Int)) (n : Nat) :
    ∀ (conf : config) (evs : List Event), ∃ new : List Event,
      (conf_get_version_calls provider n conf evs).2 = evs ++ new
        ∧ (conf.version ≠ none → new = [])
        ∧ new.length ≤ n
        ∧ (∀ e ∈ new, ∃ res, e = Event.task_version res)
        ∧ (∀ e ∈ new.dropLast, e = Event.task_version none) := by
  induction n with
  | zero => intro conf evs; exact ⟨[], by simp [conf_get_version_calls]⟩
  | succ n ih =>
    intro conf evs
    by_cases hv : conf.version = none
    · obtain ⟨new, h1, h2, h3, h4, h5⟩ :=
        ih { conf with version := provider evs.length }
          (evs ++ [Event.task_version (provider evs.length)])
      refine ⟨Event.task_version (provider evs.length) :: new, ?_, ?_, ?_, ?_, ?_⟩
      · simp only [conf_get_version_calls, conf_get_version, if_pos hv, h1]
        simp
      · intro h; exact absurd hv h
      · simp only [List.length_cons]; omega
      · intro e he
        rcases List.mem_cons.mp he with h | h
        · exact ⟨_, h⟩
        · exact h4 e h
      · cases hp : provider evs.length with
        | some v =>
          have hnew : new = [] := by
            apply h2
            simp [hp]
          subst hnew
          simp
        | none =>
          intro e he
          cases new with
          | nil => simp at he
          | cons a t =>
            rw [List.dropLast_cons₂] at he
            rcases List.mem_cons.mp he with h | h
            · exact h
            · exact h5 e h
    · obtain ⟨new, h1, h2, h3, h4, h5⟩ := ih conf (evs ++ [])
      have hnew : new = [] := h2 hv
      subst hnew
      refine ⟨[], ?_, fun _ => rfl, by simp, by simp, by simp⟩
      simp only [conf_get_version_calls, conf_get_version, if_neg hv, h1]
      simp

/-! ## Arguments are not empty and are fewer than the characters -/

theorem scan_step_argv (s s1 : Scan) (h : scan_step s = some s1) :
    s1.argv = s.argv ∨ ∃ tok, tok ≠ [] ∧ s1.argv = s.argv ++ [tok] := by
  obtain ⟨str, argv⟩ := s
  cases str with
  | nil => simp [scan_step] at h
  | cons c rest =>
    by_cases h1 : c = '#'
    · simp [scan_step, h1] at h
    by_cases h2 : c = ' ' ∨ c = '\t' ∨ c = '\n'
    · simp only [scan_step, if_neg h1, if_pos h2, Option.some.injEq] at h
      subst h
      exact Or.inl rfl
    by_cases h3 : c = '"'
    · simp only [scan_step, if_neg h1, if_neg h2, if_pos h3] at h
      by_cases h4 : strchrnul rest '"' = 0
      · simp only [if_pos h4, Option.some.injEq] at h
        subst h
        exact Or.inl rfl
      · simp only [if_neg h4, Option.some.injEq] at h
        subst h
        refine Or.inr ⟨_, ?_, rfl⟩
        rw [ne_eq, List.take_eq_nil_iff, not_or]
        refine ⟨h4, ?_⟩
        rintro rfl
        exact h4 rfl
    · simp only [scan_step, if_neg h1, if_neg h2, if_neg h3] at h
      by_cases h4 : strchrnul (c :: rest) ' ' = 0
      · simp only [if_pos h4, Option.some.injEq] at h
        subst h
        exact Or.inl rfl
      · simp only [if_neg h4, Option.some.injEq] at h
        subst h
        refine Or.inr ⟨_, ?_, rfl⟩
        rw [ne_eq, List.take_eq_nil_iff, not_or]
        exact ⟨h4, by simp⟩

theorem scan_loop_argv (n : Nat) : ∀ (s : Scan) (argv : List CStr), scan_loop n s = some argv →
    (∀ t ∈ s.argv, t ≠ []) →
    (∀ t ∈ argv, t ≠ []) ∧ argv.length + 0 ≤ s.argv.length + s.str.length := by
  induction n with
  | zero => intro s argv h; simp [scan_loop] at h
  | succ n ih =>
    intro s argv h hs
    simp only [scan_loop] at h
    cases hstep : scan_step s with
    | none =>
      rw [hstep] at h
      simp only [Option.some.injEq] at h
      subst h
      exact ⟨hs, by omega⟩
    | some s1 =>
      rw [hstep] at h
      have hlen := scan_step_length s s1 hstep
      rcases scan_step_argv s s1 hstep with e | ⟨tok, htok, e⟩
      · obtain ⟨a, b⟩ := ih s1 argv h (by rw [e]; exact hs)
        rw [e] at b
        exact ⟨a, by omega⟩
      · have hs1 : ∀ t ∈ s1.argv, t ≠ [] := by
          intro t ht
          rw [e] at ht
          rcases List.mem_append.mp ht with h1 | h1
          · exact hs t h1
          · simp only [List.mem_singleton] at h1
            rw [h1]; exact htok
        obtain ⟨a, b⟩ := ih s1 argv h hs1
        rw [e, List.length_append, List.length_singleton] at b
        exact ⟨a, by omega⟩

theorem config_set_success_iff (fopen : CStr → Option FILE) (conf : config) (argv : List CStr) :
    (config_set fopen conf argv).ret = CONFIG_SUCCESS ↔
      ∃ k v, argv = [k, v] ∧ (k = "nc_timeout".toList ∨ k = "logpath".toList
        ∨ k = "filter".toList ∨ k = "sort".toList ∨ k = "task_format".toList) := by
  constructor
  · intro h
    by_cases hl : argv.length = 2
    · obtain ⟨k, v, rfl⟩ := List.length_eq_two.mp hl
      refine ⟨k, v, rfl, ?_⟩
      by_contra hk
      simp only [not_or] at hk
      obtain ⟨h1, h2, h3, h4, h5⟩ := hk
      have hr : config_set fopen conf [k, v] = ⟨CONFIG_VAR_UNHANDLED, conf, []⟩ := by
        simp only [config_set, List.length_cons, List.length_nil, List.getD_cons_zero,
          List.getD_cons_succ, if_neg h1, if_neg h2, if_neg h3, if_neg h4, if_neg h5]
        simp
      rw [hr] at h
      simp [CONFIG_VAR_UNHANDLED, CONFIG_SUCCESS] at h
    · have hr : config_set fopen conf argv = ⟨CONFIG_ERROR_ARGC, conf, []⟩ := by
        simp [config_set, hl]
      rw [hr] at h
      simp [CONFIG_ERROR_ARGC, CONFIG_SUCCESS] at h
  · rintro ⟨k, v, rfl, hk⟩
    rcases hk with h | h | h | h | h <;> subst h <;> simp +decide [config_set]

/-! ## Reading: one call of `fgets` -/

theorem fgets_chars_append_drop (k : Nat) : ∀ s : List Char,
    fgets_chars k s ++ s.drop (fgets_chars k s).length = s := by
  induction k with
  | zero => intro s; simp [fgets_chars]
  | succ k ih =>
    intro s
    cases s with
    | nil => simp [fgets_chars]
    | cons c cs =>
      by_cases hc : c = '\n'
      · simp [fgets_chars, hc]
      · simp [fgets_chars, hc, ih cs]

theorem fgets_chars_length_le (k : Nat) : ∀ s : List Char, (fgets_chars k s).length ≤ k := by
  induction k with
  | zero => intro s; simp [fgets_chars]
  | succ k ih =>
    intro s
    cases s with
    | nil => simp [fgets_chars]
    | cons c cs =>
      by_cases hc : c = '\n'
      · simp [fgets_chars, hc]
      · have := ih cs
        simp [fgets_chars, hc]
        omega

theorem fgets_chars_ne_nil (k : Nat) (s : List Char) (hk : 0 < k) (hs : s ≠ []) :
    fgets_chars k s ≠ [] := by
  cases k with
  | zero => omega
  | succ k =>
    cases s with
    | nil => exact absurd rfl hs
    | cons c cs =>
      by_cases hc : c = '\n'
      · simp [fgets_chars, hc]
      · simp [fgets_chars, hc]

/-- A read that stored no newline and left characters in the stream is full. -/
theorem fgets_chars_full (k : Nat) : ∀ s : List Char, '\n' ∉ fgets_chars k s →
    s.drop (fgets_chars k s).length ≠ [] → (fgets_chars k s).length = k := by
  induction k with
  | zero => intro s _ _; simp [fgets_chars]
  | succ k ih =>
    intro s hnl hrest
    cases s with
    | nil => simp [fgets_chars] at hrest
    | cons c cs =>
      by_cases hc : c = '\n'
      · simp [fgets_chars, hc] at hnl
      · simp only [fgets_chars, if_neg hc, List.mem_cons, not_or, List.length_cons,
          List.drop_succ_cons] at hnl hrest ⊢
        rw [ih cs hnl.2 hrest]

/-- What one read contributes to the logical lines: with a newline it ends the
line that was being read, without one it extends it. -/
theorem logical_lines_from_fgets (k : Nat) : ∀ (s : List Char) (cur : CStr),
    logical_lines_from cur s =
      if '\n' ∈ fgets_chars k s then
        (cur ++ fgets_chars k s) :: logical_lines_from [] (s.drop (fgets_chars k s).length)
      else logical_lines_from (cur ++ fgets_chars k s) (s.drop (fgets_chars k s).length) := by
  induction k with
  | zero => intro s cur; simp [fgets_chars]
  | succ k ih =>
    intro s cur
    cases s with
    | nil => simp [fgets_chars]
    | cons c cs =>
      by_cases hc : c = '\n'
      · simp [fgets_chars, hc, logical_lines_from]
      · have hc2 : ¬ '\n' = c := fun e => hc e.symm
        simp only [fgets_chars, if_neg hc, logical_lines_from, List.mem_cons, hc2, false_or,
          List.length_cons, List.drop_succ_cons]
        rw [ih cs (cur ++ [c])]
        simp

/-! ## Reading: the two loops of `config_parse_file` -/

theorem logical_lines_from_nil_stream (line : CStr) (hne : line ≠ []) :
    logical_lines_from line [] = line :: logical_lines_from [] [] := by
  simp [logical_lines_from, hne]

/-- The line that is being read, once the stream has a further character, is
longer than what was read of it. -/
theorem logical_lines_from_head_length : ∀ (s : List Char) (cur : CStr), s ≠ [] →
    ∃ l ∈ logical_lines_from cur s, cur.length + 1 ≤ l.length := by
  intro s
  induction s with
  | nil => intro cur h; exact absurd rfl h
  | cons c cs ih =>
    intro cur _
    by_cases hc : c = '\n'
    · exact ⟨cur ++ [c], by simp [logical_lines_from, hc], by simp⟩
    · by_cases hcs : cs = []
      · exact ⟨cur ++ [c], by simp [logical_lines_from, hc, hcs], by simp⟩
      · obtain ⟨l, hl, hlen⟩ := ih (cur ++ [c]) hcs
        refine ⟨l, by simpa [logical_lines_from, hc] using hl, ?_⟩
        simp only [List.length_append, List.length_singleton] at hlen
        omega

/-- The inner loop, when no logical line still to be read has more than
`2^30 - 46` characters: it ends, it does not overflow, and the buffer it
leaves is the logical line that the buffer it was given begins. `linelen` is
`256 * 2^K` after `K` doublings. -/
theorem config_parse_file_longer_spec (fuel : Nat) :
    ∀ (line : CStr) (linelen K : Nat) (file : Stream),
      file.rest.length < fuel → line ≠ [] → 3 ≤ linelen → K ≤ 22 → linelen = 256 * 2 ^ K →
      (∀ l ∈ (if '\n' ∈ line then line :: logical_lines_from [] file.rest
                else logical_lines_from line file.rest), l.length ≤ 1073741778) →
      ('\n' ∉ line → file.rest ≠ [] → linelen ≤ line.length + 2 + 2 * K) →
      ∃ line1 linelen1 file1,
        config_parse_file_longer fuel line linelen file = Run.done (line1, linelen1, file1)
          ∧ 3 ≤ linelen1 ∧ (∃ K1, K1 ≤ 22 ∧ linelen1 = 256 * 2 ^ K1)
          ∧ file1.rest.length ≤ file.rest.length
          ∧ (if '\n' ∈ line then line :: logical_lines_from [] file.rest
              else logical_lines_from line file.rest)
            = line1 :: logical_lines_from [] file1.rest := by
  induction fuel with
  | zero => intro line linelen K file h; omega
  | succ fuel ih =>
    intro line linelen K file hfuel hne hlen hK hpow hbound hH
    by_cases hnl : '\n' ∈ line
    · exact ⟨line, linelen, file, by simp [config_parse_file_longer, hnl], hlen, ⟨K, hK, hpow⟩,
        le_refl _, by simp [hnl]⟩
    · rw [if_neg hnl] at hbound
      by_cases hgot : fgets_chars (linelen - 1 - 1) file.rest = []
      · have hrest : file.rest = [] := by
          by_contra hr
          exact fgets_chars_ne_nil _ _ (by omega) hr hgot
        have hf : fgets (linelen - 1) file = (none, ⟨[], true⟩) := by
          rw [fgets]
          simp only [hgot]
          simp [hrest]
        refine ⟨line, linelen, ⟨[], true⟩, ?_, hlen, ⟨K, hK, hpow⟩, by simp, ?_⟩
        · simp only [config_parse_file_longer, if_neg hnl, hf]
        · rw [if_neg hnl, hrest]
          exact logical_lines_from_nil_stream line hne
      · obtain ⟨got, hgotdef⟩ : ∃ got, got = fgets_chars (linelen - 1 - 1) file.rest := ⟨_, rfl⟩
        rw [← hgotdef] at hgot
        have hrest : file.rest ≠ [] := by
          intro hr
          apply hgot
          rw [hgotdef, hr]
          cases (linelen - 1 - 1) <;> rfl
        have hsplit := fgets_chars_append_drop (linelen - 1 - 1) file.rest
        rw [← hgotdef] at hsplit
        have hlens : got.length + (file.rest.drop got.length).length = file.rest.length := by
          conv_rhs => rw [← hsplit]
          rw [List.length_append]
        have hgotlen : got.length ≤ linelen - 1 - 1 := by
          rw [hgotdef]; exact fgets_chars_length_le _ _
        have hgotpos : 0 < got.length := List.length_pos.mpr hgot
        obtain ⟨eof1, hf⟩ : ∃ eof1, fgets (linelen - 1) file
            = (some got, ⟨file.rest.drop got.length, eof1⟩) := by
          refine ⟨file.eof || (decide (got.length < linelen - 1 - 1)
            && got.getLast? != some '\n'), ?_⟩
          rw [fgets]
          simp only [← hgotdef, if_neg hgot]
        have hH1 := hH hnl hrest
        obtain ⟨l0, hl0, hl0len⟩ := logical_lines_from_head_length file.rest line hrest
        have hl0max := hbound l0 hl0
        have hsmall : linelen ≤ 1073741823 := by omega
        have hov : ¬ INT_MAX < 2 * (linelen : Int) := by
          simp only [INT_MAX]
          omega
        have hK1 : K + 1 ≤ 22 := by
          by_contra hc
          have hK22 : K = 22 := by omega
          rw [hK22] at hpow
          norm_num at hpow
          omega
        have hpow1 : 2 * linelen = 256 * 2 ^ (K + 1) := by
          rw [hpow, pow_succ]; ring
        have htake : got.take (linelen - 1) = got := List.take_of_length_le (by omega)
        have hP : (if '\n' ∈ line ++ got
              then (line ++ got) :: logical_lines_from [] (file.rest.drop got.length)
              else logical_lines_from (line ++ got) (file.rest.drop got.length))
            = logical_lines_from line file.rest := by
          rw [logical_lines_from_fgets (linelen - 1 - 1) file.rest line, ← hgotdef]
          simp only [List.mem_append, hnl, false_or]
        obtain ⟨line1, linelen1, file1, h1, h2, hk, h3, h4⟩ :=
          ih (line ++ got) (2 * linelen) (K + 1) ⟨file.rest.drop got.length, eof1⟩
            (by simp only; omega) (by simp [hgot]) (by omega) hK1 hpow1
            (by
              simp only
              rw [hP]
              exact hbound)
            (by
              intro hnl1 hrest1
              have hnlgot : '\n' ∉ got := fun h => hnl1 (List.mem_append_right _ h)
              rw [hgotdef] at hnlgot hrest1
              have hfull := fgets_chars_full _ _ hnlgot hrest1
              rw [← hgotdef] at hfull
              simp only [List.length_append]
              omega)
        refine ⟨line1, linelen1, file1, ?_, h2, hk, ?_, ?_⟩
        · simp only [config_parse_file_longer, if_neg hnl, hf, if_neg hov, htake]
          exact h1
        · simp only at h3
          omega
        · simp only at h4
          rw [if_neg hnl, ← hP, h4]

theorem fgets_at_end (n : Nat) (file : Stream) (h : file.rest = []) :
    fgets n file = (none, ⟨[], true⟩) := by
  have hgot : fgets_chars (n - 1) file.rest = [] := by
    rw [h]; cases (n - 1) <;> rfl
  rw [fgets]
  simp only [hgot]
  simp [h]

theorem fgets_some (n : Nat) (file : Stream) (h : file.rest ≠ []) (hn : 2 ≤ n) :
    ∃ eof1, fgets n file = (some (fgets_chars (n - 1) file.rest),
      ⟨file.rest.drop (fgets_chars (n - 1) file.rest).length, eof1⟩) := by
  have hgot : fgets_chars (n - 1) file.rest ≠ [] := fgets_chars_ne_nil _ _ (by omega) h
  refine ⟨file.eof || (decide ((fgets_chars (n - 1) file.rest).length < n - 1)
    && (fgets_chars (n - 1) file.rest).getLast? != some '\n'), ?_⟩
  rw [fgets]
  simp only [if_neg hgot]

theorem config_parse_string_total (fopen : CStr → Option FILE) (conf : config) (line : CStr) :
    ∃ o, config_parse_string fopen conf line = some o := by
  obtain ⟨argv, hargv⟩ :=
    scan_run_isSome _ ⟨line.takeWhile (fun c => c ≠ '\n'), []⟩ (Nat.lt_succ_self _)
  have hargv1 : config_parse_string_argv line = some argv := hargv
  cases argv with
  | nil => exact ⟨⟨1, conf, []⟩, by simp only [config_parse_string, hargv1]⟩
  | cons a0 rest =>
    by_cases hset : a0 = "set".toList
    · exact ⟨config_set fopen conf rest,
        by simp only [config_parse_string, hargv1, if_pos hset]⟩
    · exact ⟨⟨1, conf, []⟩, by simp only [config_parse_string, hargv1, if_neg hset]⟩

/-- The outer loop, when no logical line still to be read has more than
`2^30 - 46` characters: it ends, and the lines it hands over are the logical
lines of what was left to read. -/
theorem config_parse_file_loop_spec (fopen : CStr → Option FILE) (fuel : Nat) :
    ∀ (linelen K : Nat) (file : Stream) (st : FileRun),
      file.rest.length < fuel → 3 ≤ linelen → K ≤ 22 → linelen = 256 * 2 ^ K →
      (∀ l ∈ logical_lines_from [] file.rest, l.length ≤ 1073741778) →
      ∃ st1, config_parse_file_loop fopen fuel linelen file st = Run.done st1
        ∧ st1.handed = st.handed ++ logical_lines_from [] file.rest := by
  induction fuel with
  | zero => intro linelen K file st h; omega
  | succ fuel ih =>
    intro linelen K file st hfuel hlen hK hpow hbound
    by_cases hrest : file.rest = []
    · refine ⟨st, ?_, ?_⟩
      · simp only [config_parse_file_loop, fgets_at_end _ file hrest, and_self, if_true]
      · simp [hrest, logical_lines_from]
    · obtain ⟨eof1, hf⟩ := fgets_some (linelen - 1) file hrest (by omega)
      obtain ⟨got, hgotdef⟩ : ∃ got, got = fgets_chars (linelen - 1 - 1) file.rest := ⟨_, rfl⟩
      rw [← hgotdef] at hf
      have hgot : got ≠ [] := by
        rw [hgotdef]; exact fgets_chars_ne_nil _ _ (by omega) hrest
      have hsplit := fgets_chars_append_drop (linelen - 1 - 1) file.rest
      rw [← hgotdef] at hsplit
      have hlens : got.length + (file.rest.drop got.length).length = file.rest.length := by
        conv_rhs => rw [← hsplit]
        rw [List.length_append]
      have hgotpos : 0 < got.length := List.length_pos.mpr hgot
      have hP : logical_lines_from [] file.rest
          = (if '\n' ∈ got then got :: logical_lines_from [] (file.rest.drop got.length)
              else logical_lines_from got (file.rest.drop got.length)) := by
        rw [logical_lines_from_fgets (linelen - 1 - 1) file.rest [], ← hgotdef, List.nil_append]
      obtain ⟨line1, linelen1, file1, h1, h2, ⟨K1, hK1, hpow1⟩, h3, h4⟩ :=
        config_parse_file_longer_spec
          ((file.rest.drop got.length).length + 1) got linelen K
          ⟨file.rest.drop got.length, eof1⟩ (by simp) hgot hlen hK hpow
          (by
            simp only
            rw [← hP]
            exact hbound)
          (by
            intro hnl hrest1
            rw [hgotdef] at hnl hrest1
            have hfull := fgets_chars_full _ _ hnl hrest1
            rw [← hgotdef] at hfull
            omega)
      simp only at h4
      obtain ⟨o, ho⟩ := config_parse_string_total fopen st.conf line1
      obtain ⟨st1, g1, g2⟩ := ih linelen1 K1 file1
        ⟨o.conf, st.events ++ o.events, st.handed ++ [line1]⟩
        (by simp only at h3; omega) h2 hK1 hpow1
        (by
          intro l hl
          apply hbound l
          rw [hP, h4]
          exact List.mem_cons_of_mem _ hl)
      refine ⟨st1, ?_, ?_⟩
      · simp only [config_parse_file_loop, hf, Option.getD_some, h1, ho]
        simp only [reduceCtorEq, false_and, if_false]
        exact g1
      · rw [g2, hP, h4]
        simp

/-! ## Reading: a line of `2^30` characters -/

theorem fgets_chars_replicate (k : Nat) : ∀ R : Nat, k ≤ R →
    fgets_chars k (List.replicate R 'a') = List.replicate k 'a' := by
  induction k with
  | zero => intro R _; simp [fgets_chars]
  | succ k ih =>
    intro R hR
    cases R with
    | zero => omega
    | succ R =>
      simp only [List.replicate_succ, fgets_chars]
      rw [if_neg (by decide), ih R (by omega)]

/-- On a stream of characters `a` the inner loop doubles `linelen` from
`2^(30-j)` up to `2^30`, where `2*linelen` overflows, when the stream is long
enough to fill every read on the way and to start one more. -/
theorem config_parse_file_longer_overflow (j : Nat) :
    ∀ (fuel : Nat) (line : CStr) (R : Nat) (e : Bool), j ≤ 22 → j < fuel → '\n' ∉ line →
      2 ^ 30 + 1 ≤ R + 2 ^ (30 - j) + 2 * j →
      config_parse_file_longer fuel line (2 ^ (30 - j)) ⟨List.replicate R 'a', e⟩
        = Run.overflow := by
  induction j with
  | zero =>
    intro fuel line R e _ hfuel hnl hR
    obtain ⟨f, rfl⟩ : ∃ f, fuel = f + 1 := ⟨fuel - 1, by omega⟩
    have hp : (2 : Nat) ^ (30 - 0) = 1073741824 := by norm_num
    rw [hp] at hR ⊢
    have hrest : (⟨List.replicate R 'a', e⟩ : Stream).rest ≠ [] := by
      simp only [ne_eq, List.replicate_eq_nil_iff]
      omega
    obtain ⟨eof1, hf⟩ := fgets_some (1073741824 - 1) ⟨List.replicate R 'a', e⟩ hrest (by omega)
    simp only [config_parse_file_longer, if_neg hnl, hf]
    rw [if_pos (by decide)]
  | succ j ih =>
    intro fuel line R e hj hfuel hnl hR
    obtain ⟨f, rfl⟩ : ∃ f, fuel = f + 1 := ⟨fuel - 1, by omega⟩
    have hpow : 2 ^ (30 - j) = 2 * 2 ^ (30 - (j + 1)) := by
      rw [← pow_succ']
      congr 1
      omega
    have hlo : 256 ≤ 2 ^ (30 - (j + 1)) := by
      have h := Nat.pow_le_pow_right (by norm_num : 0 < 2) (by omega : 8 ≤ 30 - (j + 1))
      norm_num at h
      exact h
    have hhi : 2 ^ (30 - (j + 1)) ≤ 536870912 := by
      have h := Nat.pow_le_pow_right (by norm_num : 0 < 2) (by omega : 30 - (j + 1) ≤ 29)
      norm_num at h
      exact h
    have hhi1 : j = 0 ∨ 2 ^ (30 - (j + 1)) ≤ 268435456 := by
      by_cases hj0 : j = 0
      · exact Or.inl hj0
      · right
        have h := Nat.pow_le_pow_right (by norm_num : 0 < 2) (by omega : 30 - (j + 1) ≤ 28)
        norm_num at h
        exact h
    have hih := fun (line1 : CStr) (R1 : Nat) (e1 : Bool) => ih f line1 R1 e1 (by omega) (by omega)
    rw [hpow] at hih
    have h30 : (2 : Nat) ^ 30 = 1073741824 := by norm_num
    rw [h30] at hR hih
    generalize 2 ^ (30 - (j + 1)) = l at hlo hhi hhi1 hih hR ⊢
    have hrest : (⟨List.replicate R 'a', e⟩ : Stream).rest ≠ [] := by
      simp only [ne_eq, List.replicate_eq_nil_iff]
      omega
    obtain ⟨eof1, hf⟩ := fgets_some (l - 1) ⟨List.replicate R 'a', e⟩ hrest (by omega)
    simp only at hf
    rw [fgets_chars_replicate (l - 1 - 1) R (by omega)] at hf
    simp only [List.length_replicate, List.drop_replicate] at hf
    have hov : ¬ INT_MAX < 2 * (l : Int) := by
      simp only [INT_MAX]
      omega
    simp only [config_parse_file_longer, if_neg hnl, hf, if_neg hov]
    apply hih
    · intro hmem
      rcases List.mem_append.mp hmem with h | h
      · exact hnl h
      · have := List.eq_of_mem_replicate (List.mem_of_mem_take h)
        exact absurd this (by decide)
    · omega

/-- A stream of at least `2^30 - 45` characters `a`: the first read stores 254
of them, and the inner loop runs into the overflow. -/
theorem config_parse_file_overflow (fopen : CStr → Option FILE) (conf : config) (N : Nat)
    (hN : 1073741779 ≤ N) :
    config_parse_file fopen conf ⟨List.replicate N 'a', false⟩ = Run.overflow := by
  have hrest : (⟨List.replicate N 'a', false⟩ : Stream).rest ≠ [] := by
    simp only [ne_eq, List.replicate_eq_nil_iff]
    omega
  obtain ⟨eof1, hf⟩ := fgets_some (256 - 1) ⟨List.replicate N 'a', false⟩ hrest (by omega)
  simp only at hf
  rw [fgets_chars_replicate (256 - 1 - 1) N (by omega)] at hf
  simp only [List.length_replicate, List.drop_replicate] at hf
  have h8 : (2 : Nat) ^ (30 - 22) = 256 := by norm_num
  have h30 : (2 : Nat) ^ 30 = 1073741824 := by norm_num
  have hin := config_parse_file_longer_overflow 22 (N - (256 - 1 - 1) + 1)
    (List.replicate (256 - 1 - 1) 'a') (N - (256 - 1 - 1)) eof1 (le_refl _) (by omega)
    (by
      intro h
      exact absurd (List.eq_of_mem_replicate h) (by decide))
    (by
      rw [h8, h30]
      omega)
  rw [h8] at hin
  unfold config_parse_file
  rw [config_parse_file_loop]
  simp only [hf, Option.getD_some, List.length_replicate, hin]
  simp only [reduceCtorEq, false_and, if_false]

theorem logical_lines_from_one_line (w : CStr) (hw : '\n' ∉ w) : ∀ cur : CStr,
    logical_lines_from cur (w ++ ['\n']) = [cur ++ w ++ ['\n']] := by
  induction w with
  | nil => intro cur; simp [logical_lines_from]
  | cons c cs ih =>
    intro cur
    have hc : ¬ c = '\n' := fun e => hw (by simp [e])
    have hcs : '\n' ∉ cs := fun e => hw (by simp [e])
    have h := ih hcs (cur ++ [c])
    rw [List.cons_append, logical_lines_from, if_neg hc, h]
    simp

theorem logical_lines_newlines (N : Nat) :
    logical_lines (List.replicate N '\n') = List.replicate N ['\n'] := by
  unfold logical_lines
  induction N with
  | zero => rfl
  | succ N ih =>
    rw [List.replicate_succ, List.replicate_succ, logical_lines_from, if_pos rfl, ih]
    rfl

/-! ## Arguments as the code reads them -/

theorem argv_as_read_nil (argv : List CStr) : ∀ n, argv_as_read (fun _ => []) n argv = argv := by
  induction argv with
  | nil => intro n; rfl
  | cons a rest ih =>
    intro n
    rw [argv_as_read, ih, List.append_nil]

/-- With a NUL behind every buffer the arguments are read as they were copied. -/
theorem config_parse_string_past_nil (fopen : CStr → Option FILE) (conf : config) (str : CStr) :
    config_parse_string_past (fun _ => []) fopen conf str = config_parse_string fopen conf str := by
  unfold config_parse_string_past config_parse_string
  cases config_parse_string_argv str with
  | none => rfl
  | some argv => simp only [argv_as_read_nil]

/-- The line `set k "v"` with a NUL behind the buffers of `set` and of `k`:
the value that `config_set` receives is `v` followed by what lies behind its
buffer. -/
theorem config_parse_string_past_set_quoted (past : Nat → CStr) (fopen : CStr → Option FILE)
    (conf : config) (k v : CStr) (hk : k ≠ [])
    (hk1 : k.head? ≠ some '#') (hk2 : k.head? ≠ some '"') (hk3 : k.head? ≠ some '\t')
    (hksp : ' ' ∉ k) (hknl : '\n' ∉ k) (hne : v ≠ []) (hq : '"' ∉ v) (hnl : '\n' ∉ v)
    (h0 : past 0 = []) (h1 : past 1 = []) :
    config_parse_string_past past fopen conf
        ("set ".toList ++ k ++ " \"".toList ++ v ++ "\"".toList)
      = some (config_set fopen conf [k, v ++ past 2]) := by
  rw [config_parse_string_past, argv_set_quoted k v hk hk1 hk2 hk3 hksp hknl hne hq hnl]
  simp only [argv_as_read, h0, h1, List.append_nil, if_true]

/-! ## The claims -/

/-- C1 (the code at the failing input). The value `status:pending project:a`
has 24 characters, and so has `000000000000000000000005`. When the byte `1`
and then a NUL lie behind the buffer of the value, `set filter "..."` returns
`CONFIG_SUCCESS` and stores the 25 characters `status:pending project:a1`, and
`set nc_timeout "..."` stores 51; for any bytes `stray` behind the buffer the
filter that is read back is the value followed by `stray`. -/
theorem round_trip_reads_past_buffer (fopen : CStr → Option FILE) (conf : config)
    (stray : CStr) :
    "status:pending project:a".toList.length = 24
      ∧ config_parse_string_past (fun n => if n = 2 then "1".toList else []) (fun _ => none)
          default_config "set filter \"status:pending project:a\"".toList
        = some ⟨CONFIG_SUCCESS,
            { default_config with filter := some "status:pending project:a1".toList },
            [Event.free "status:pending".toList]⟩
      ∧ config_parse_string_past (fun n => if n = 2 then "1".toList else []) (fun _ => none)
          default_config "set nc_timeout \"000000000000000000000005\"".toList
        = some ⟨CONFIG_SUCCESS, { default_config with nc_timeout := 51 }, []⟩
      ∧ Option.map (fun r => conf_get_filter r.conf)
          (config_parse_string_past (fun n => if n = 2 then stray else []) fopen conf
            "set filter \"status:pending project:a\"".toList)
        = some (some ("status:pending project:a".toList ++ stray)) := by
  refine ⟨by decide, by decide, by decide, ?_⟩
  have h := config_parse_string_past_set_quoted (fun n => if n = 2 then stray else []) fopen conf
    "filter".toList "status:pending project:a".toList (by decide) (by decide) (by decide)
    (by decide) (by decide) (by decide) (by decide) (by decide) (by decide) rfl rfl
  have hline : "set ".toList ++ "filter".toList ++ " \"".toList
      ++ "status:pending project:a".toList ++ "\"".toList
      = "set filter \"status:pending project:a\"".toList := by decide
  rw [hline] at h
  rw [h]
  simp +decide [config_set, conf_set_filter, conf_get_filter]

/-- C2 (the code at the failing input). After the quoted argument `a b` the
scan pointer is left on the closing quote, which is read as the opening quote
of a further argument ` # note`, although the text ` # note` on its own has no
argument. On the line `set filter "a b" # note` four arguments are stored, the
call returns `CONFIG_ERROR_ARGC` and `filter` is not set. -/
theorem closing_quote_opens_next_argument :
    config_parse_string_argv "\"a b\" # note".toList = some ["a b".toList, " # note".toList]
      ∧ config_parse_string_argv " # note".toList = some []
      ∧ config_parse_string_argv "set filter \"a b\" # note".toList
        = some ["set".toList, "filter".toList, "a b".toList, " # note".toList]
      ∧ config_parse_string (fun _ => none) default_config "set filter \"a b\" # note".toList
        = some ⟨CONFIG_ERROR_ARGC, default_config, []⟩ := by
  decide

/-- C3 (the code at the failing input). On the line `set<TAB>filter<TAB>foo`
the unquoted argument that starts at `s` runs over both tabs to the end of the
line: one argument is stored, which is not `set`, and the call returns 1. -/
theorem tab_does_not_end_argument :
    config_parse_string_argv "set\tfilter\tfoo".toList = some ["set\tfilter\tfoo".toList]
      ∧ config_parse_string (fun _ => none) default_config "set\tfilter\tfoo".toList
        = some ⟨1, default_config, []⟩ := by
  decide

/-- C5. Comment suppression: for every line that is a run `ws` of spaces, tabs
and newlines followed by `#` and any text, no argument is stored, and
`config_parse_string` leaves the store as it was and makes no outside call. -/
theorem comment_suppression (fopen : CStr → Option FILE) (conf : config) (ws rest : CStr)
    (hws : ∀ c ∈ ws, c = ' ' ∨ c = '\t' ∨ c = '\n') :
    config_parse_string_argv (ws ++ '#' :: rest) = some []
      ∧ config_parse_string fopen conf (ws ++ '#' :: rest) = some ⟨1, conf, []⟩ := by
  have h : config_parse_string_argv (ws ++ '#' :: rest) = some [] :=
    scan_run_blank_comment rest [] ws hws
  exact ⟨h, by simp [config_parse_string, h]⟩

/-- C5 (witness). The line `# set filter foo`, and the same after a space and a tab. -/
theorem comment_suppression_witness :
    (config_parse_string_argv ([] ++ '#' :: " set filter foo".toList) = some []
        ∧ config_parse_string (fun _ => none) default_config ([] ++ '#' :: " set filter foo".toList)
          = some ⟨1, default_config, []⟩)
      ∧ (config_parse_string_argv (" \t".toList ++ '#' :: " set filter foo".toList) = some []
        ∧ config_parse_string (fun _ => none) default_config
            (" \t".toList ++ '#' :: " set filter foo".toList) = some ⟨1, default_config, []⟩) :=
  ⟨comment_suppression (fun _ => none) default_config [] " set filter foo".toList (by decide),
    comment_suppression (fun _ => none) default_config " \t".toList " set filter foo".toList
      (by decide)⟩

/-- C6. Argument-count rejection: for every store and every line whose
arguments are `set` followed by a number of arguments other than 2,
`config_set` and `config_parse_string` return `CONFIG_ERROR_ARGC`, the store is
as it was and no outside call is made, whatever the key. -/
theorem argument_count_rejection (fopen : CStr → Option FILE) (conf : config)
    (line : CStr) (rest : List CStr)
    (hargv : config_parse_string_argv line = some ("set".toList :: rest))
    (hlen : rest.length ≠ 2) :
    config_set fopen conf rest = ⟨CONFIG_ERROR_ARGC, conf, []⟩
      ∧ config_parse_string fopen conf line = some ⟨CONFIG_ERROR_ARGC, conf, []⟩ := by
  have h : config_set fopen conf rest = ⟨CONFIG_ERROR_ARGC, conf, []⟩ := by
    simp [config_set, hlen]
  exact ⟨h, by simp [config_parse_string, hargv, h]⟩

/-- C6 (witness). The lines `set filter` and `set filter a b`. -/
theorem argument_count_rejection_witness :
    (config_set (fun _ => none) default_config ["filter".toList]
          = ⟨CONFIG_ERROR_ARGC, default_config, []⟩
        ∧ config_parse_string (fun _ => none) default_config "set filter".toList
          = some ⟨CONFIG_ERROR_ARGC, default_config, []⟩)
      ∧ (config_set (fun _ => none) default_config ["filter".toList, "a".toList, "b".toList]
          = ⟨CONFIG_ERROR_ARGC, default_config, []⟩
        ∧ config_parse_string (fun _ => none) default_config "set filter a b".toList
          = some ⟨CONFIG_ERROR_ARGC, default_config, []⟩) :=
  ⟨argument_count_rejection (fun _ => none) default_config "set filter".toList
      ["filter".toList] (by decide) (by decide),
    argument_count_rejection (fun _ => none) default_config "set filter a b".toList
      ["filter".toList, "a".toList, "b".toList] (by decide) (by decide)⟩

/-- C7. Unknown key: for every store and every line whose arguments are `set`,
`k`, `v` with `k` not exactly one of `nc_timeout`, `logpath`, `filter`, `sort`,
`task_format`, `config_set` returns `CONFIG_VAR_UNHANDLED`, so does
`config_parse_string`, the store is as it was and no outside call is made. -/
theorem unknown_key (fopen : CStr → Option FILE) (conf : config) (line k v : CStr)
    (hargv : config_parse_string_argv line = some ["set".toList, k, v])
    (h1 : k ≠ "nc_timeout".toList) (h2 : k ≠ "logpath".toList) (h3 : k ≠ "filter".toList)
    (h4 : k ≠ "sort".toList) (h5 : k ≠ "task_format".toList) :
    config_set fopen conf [k, v] = ⟨CONFIG_VAR_UNHANDLED, conf, []⟩
      ∧ config_parse_string fopen conf line = some ⟨CONFIG_VAR_UNHANDLED, conf, []⟩ := by
  have h : config_set fopen conf [k, v] = ⟨CONFIG_VAR_UNHANDLED, conf, []⟩ := by
    simp only [config_set, List.length_cons, List.length_nil, List.getD_cons_zero,
      List.getD_cons_succ, if_neg h1, if_neg h2, if_neg h3, if_neg h4, if_neg h5]
    simp
  exact ⟨h, by simp only [config_parse_string, hargv, if_true, h]⟩

/-- C7 (witness). The lines `set bogus 5` and `set Filter x`, the second with a
key that differs from `filter` in letter case only. -/
theorem unknown_key_witness :
    (config_set (fun _ => none) default_config ["bogus".toList, "5".toList]
          = ⟨CONFIG_VAR_UNHANDLED, default_config, []⟩
        ∧ config_parse_string (fun _ => none) default_config "set bogus 5".toList
          = some ⟨CONFIG_VAR_UNHANDLED, default_config, []⟩)
      ∧ (config_set (fun _ => none) default_config ["Filter".toList, "x".toList]
          = ⟨CONFIG_VAR_UNHANDLED, default_config, []⟩
        ∧ config_parse_string (fun _ => none) default_config "set Filter x".toList
          = some ⟨CONFIG_VAR_UNHANDLED, default_config, []⟩) :=
  ⟨unknown_key (fun _ => none) default_config "set bogus 5".toList "bogus".toList "5".toList
      (by decide) (by decide) (by decide) (by decide) (by decide) (by decide),
    unknown_key (fun _ => none) default_config "set Filter x".toList "Filter".toList "x".toList
      (by decide) (by decide) (by decide) (by decide) (by decide) (by decide)⟩

/-- C8 (the code at the failing inputs). For every store, the empty line, a
line of blanks, a comment line and the line `frobnicate now`, whose first
argument is not `set`, all return the same code 1 and leave the store as it
was; the code `CONFIG_CMD_UNHANDLED`, which is 3, is returned for none. -/
theorem no_command_and_unknown_command_same_code (fopen : CStr → Option FILE) (conf : config) :
    config_parse_string fopen conf "".toList = some ⟨1, conf, []⟩
      ∧ config_parse_string fopen conf " \t ".toList = some ⟨1, conf, []⟩
      ∧ config_parse_string fopen conf "# comment".toList = some ⟨1, conf, []⟩
      ∧ config_parse_string fopen conf "frobnicate now".toList = some ⟨1, conf, []⟩
      ∧ CONFIG_CMD_UNHANDLED = 3 := by
  have e1 : config_parse_string_argv "".toList = some [] := by decide
  have e2 : config_parse_string_argv " \t ".toList = some [] := by decide
  have e3 : config_parse_string_argv "# comment".toList = some [] := by decide
  have e4 : config_parse_string_argv "frobnicate now".toList
      = some ["frobnicate".toList, "now".toList] := by decide
  refine ⟨?_, ?_, ?_, ?_, rfl⟩
  · simp only [config_parse_string, e1]
  · simp only [config_parse_string, e2]
  · simp only [config_parse_string, e3]
  · simp only [config_parse_string, e4]
    exact if_neg (by decide)

/-- C9. Errors are atomic: for every store and every line,
`config_parse_string` returns, and when the code it returns is not 0 the store
is equal to the store before the call and no outside call was made. -/
theorem errors_leave_store_unchanged (fopen : CStr → Option FILE) (conf : config) (line : CStr) :
    ∃ r, config_parse_string fopen conf line = some r
      ∧ (r.ret ≠ 0 → r.conf = conf ∧ r.events = []) := by
  obtain ⟨argv, hargv⟩ :=
    scan_run_isSome _ ⟨line.takeWhile (fun c => c ≠ '\n'), []⟩ (Nat.lt_succ_self _)
  have hargv1 : config_parse_string_argv line = some argv := hargv
  cases argv with
  | nil => exact ⟨⟨1, conf, []⟩, by simp only [config_parse_string, hargv1], fun _ => ⟨rfl, rfl⟩⟩
  | cons a0 rest =>
    by_cases hset : a0 = "set".toList
    · refine ⟨config_set fopen conf rest, by simp only [config_parse_string, hargv1, if_pos hset], ?_⟩
      unfold config_set
      simp only [CONFIG_SUCCESS, CONFIG_ERROR_ARGC, CONFIG_VAR_UNHANDLED]
      split_ifs <;> simp
    · exact ⟨⟨1, conf, []⟩, by simp only [config_parse_string, hargv1, if_neg hset],
        fun _ => ⟨rfl, rfl⟩⟩

/-- C10. Permissive integer parsing: for every store and every value `s`,
`config_set` with the arguments `nc_timeout`, `s` returns `CONFIG_SUCCESS`,
makes no outside call and changes no field other than `nc_timeout`, which
becomes `config_parse_int s`. For `s` the decimal digits of `n`, with `n` in
the range of `int`, followed by text `rest` that does not go on with a digit,
that value is `n`, and `-n` when a minus sign stands before the digits; for `s`
empty, or any `junk` that does not begin with an integer (optional white
space, optional sign, digit), it is 0. -/
theorem permissive_integer_parsing (fopen : CStr → Option FILE) (conf : config)
    (s : CStr) (n : Nat) (rest junk : CStr)
    (hn : (n : Int) ≤ INT_MAX) (hrest : ∀ c ∈ rest.head?, isdigit c = false)
    (hjunk : begins_with_integer junk = false) :
    config_set fopen conf ["nc_timeout".toList, s]
        = ⟨CONFIG_SUCCESS, { conf with nc_timeout := config_parse_int s }, []⟩
      ∧ config_set fopen conf ["nc_timeout".toList, Nat.toDigits 10 n ++ rest]
        = ⟨CONFIG_SUCCESS, { conf with nc_timeout := n }, []⟩
      ∧ config_set fopen conf ["nc_timeout".toList, '-' :: (Nat.toDigits 10 n ++ rest)]
        = ⟨CONFIG_SUCCESS, { conf with nc_timeout := -n }, []⟩
      ∧ config_set fopen conf ["nc_timeout".toList, junk]
        = ⟨CONFIG_SUCCESS, { conf with nc_timeout := 0 }, []⟩
      ∧ config_set fopen conf ["nc_timeout".toList, []]
        = ⟨CONFIG_SUCCESS, { conf with nc_timeout := 0 }, []⟩ := by
  have hset : ∀ t : CStr, config_set fopen conf ["nc_timeout".toList, t]
      = ⟨CONFIG_SUCCESS, { conf with nc_timeout := config_parse_int t }, []⟩ := by
    intro t
    simp [config_set]
  obtain ⟨hds, hne, hval⟩ := toDigits_value n
  have hnum : config_parse_int (Nat.toDigits 10 n ++ rest) = n
      ∧ config_parse_int ('-' :: (Nat.toDigits 10 n ++ rest)) = -n := by
    cases hnd : Nat.toDigits 10 n with
    | nil => exact absurd hnd hne
    | cons d ds =>
      rw [hnd] at hds hval
      obtain ⟨h1, h2⟩ := sscanf_d_digits d ds rest hds hrest
      simp only [INT_MAX] at hn
      constructor
      · rw [config_parse_int, h1, hval, Option.getD_some]
        exact store_int_of_range _ (by simp only [INT_MIN]; omega) (by simp only [INT_MAX]; omega)
      · rw [config_parse_int, h2, hval, Option.getD_some]
        exact store_int_of_range _ (by simp only [INT_MIN]; omega) (by simp only [INT_MAX]; omega)
  refine ⟨hset s, ?_, ?_, ?_, ?_⟩
  · rw [hset, hnum.1]
  · rw [hset, hnum.2]
  · rw [hset, config_parse_int_junk junk hjunk]
  · rw [hset]; rfl

/-- C10 (witness). The values `500ms`, `-500ms`, `abc` and the empty value. -/
theorem permissive_integer_parsing_witness :
    (Nat.toDigits 10 500 ++ "ms".toList = "500ms".toList
        ∧ begins_with_integer "abc".toList = false)
      ∧ (config_set (fun _ => none) default_config ["nc_timeout".toList, "12 monkeys".toList]
          = ⟨CONFIG_SUCCESS,
              { default_config with nc_timeout := config_parse_int "12 monkeys".toList }, []⟩
        ∧ config_set (fun _ => none) default_config
            ["nc_timeout".toList, Nat.toDigits 10 500 ++ "ms".toList]
          = ⟨CONFIG_SUCCESS, { default_config with nc_timeout := (500 : Nat) }, []⟩
        ∧ config_set (fun _ => none) default_config
            ["nc_timeout".toList, '-' :: (Nat.toDigits 10 500 ++ "ms".toList)]
          = ⟨CONFIG_SUCCESS, { default_config with nc_timeout := -(500 : Nat) }, []⟩
        ∧ config_set (fun _ => none) default_config ["nc_timeout".toList, "abc".toList]
          = ⟨CONFIG_SUCCESS, { default_config with nc_timeout := 0 }, []⟩
        ∧ config_set (fun _ => none) default_config ["nc_timeout".toList, []]
          = ⟨CONFIG_SUCCESS, { default_config with nc_timeout := 0 }, []⟩) :=
  ⟨by decide, permissive_integer_parsing (fun _ => none) default_config "12 monkeys".toList 500
    "ms".toList "abc".toList (by decide) (by decide) (by decide)⟩

/-- C12 (counterexample). A provider that fails is invoked again by the next
call: two calls of `conf_get_version` on the default store, with a provider
that returns no version, invoke `task_version` twice. -/
theorem version_failure_not_cached :
    conf_get_version_calls (fun _ => none) 2 default_config []
      = (default_config, [Event.task_version none, Event.task_version none]) := by
  decide

/-- C12 (amended). A call of `conf_get_version` on a store that holds a
version returns it and does not invoke the provider; on a store without a
version it invokes the provider once and stores what it returned. So in every
sequence of `n` calls on a store the provider is invoked at most `n` times,
never when the store holds a version at the start, and every invocation other
than the last one is one that failed: a version, once returned, is cached and
never fetched again; a failure is not cached. -/
theorem version_cached_after_success (provider : Nat → Option (Int × Int × Int)) (n : Nat)
    (conf : config) (v : Int × Int × Int) (res : Option (Int × Int × Int)) :
    conf_get_version res { conf with version := some v }
        = (some v, { conf with version := some v }, [])
      ∧ conf_get_version res { conf with version := none }
        = (res, { conf with version := res }, [Event.task_version res])
      ∧ (conf_get_version_calls provider n { conf with version := some v } []).2 = []
      ∧ (conf_get_version_calls provider n conf []).2.length ≤ n
      ∧ (∀ e ∈ (conf_get_version_calls provider n conf []).2, ∃ r, e = Event.task_version r)
      ∧ (∀ e ∈ (conf_get_version_calls provider n conf []).2.dropLast,
          e = Event.task_version none) := by
  obtain ⟨new, h1, _, h3, h4, h5⟩ := conf_get_version_calls_events provider n conf []
  obtain ⟨new1, g1, g2, _, _, _⟩ :=
    conf_get_version_calls_events provider n { conf with version := some v } []
  rw [List.nil_append] at h1 g1
  rw [h1, g1]
  exact ⟨by simp [conf_get_version], by simp [conf_get_version], g2 (by simp), h3, h4, h5⟩

/-- C13. Replacing the log path: for every store and path `p`, `config_set`
with the arguments `logpath`, `p` returns `CONFIG_SUCCESS`; when a log handle
`h` is open it makes exactly the outside calls `fclose(h)` and then
`fopen(p, "a")`, and when none is open only the `fopen`; afterwards the log
handle is what `fopen` returned, the new stream or none, and every other field
is as before. -/
theorem logpath_replacement (fopen : CStr → Option FILE) (conf : config) (p : CStr) (h : FILE) :
    config_set fopen { conf with logfd := some h } ["logpath".toList, p]
        = ⟨CONFIG_SUCCESS, { conf with logfd := fopen p },
            [Event.fclose h, Event.fopen p (fopen p)]⟩
      ∧ config_set fopen { conf with logfd := none } ["logpath".toList, p]
        = ⟨CONFIG_SUCCESS, { conf with logfd := fopen p }, [Event.fopen p (fopen p)]⟩
      ∧ conf_get_logfd (config_set fopen conf ["logpath".toList, p]).conf = fopen p := by
  refine ⟨?_, ?_, ?_⟩ <;> simp +decide [config_set, check_fclose, conf_get_logfd]

/-- C15. Zero-length arguments are dropped: for every line the loop returns
its arguments and each of them has at least one character; the line
`set filter ""` has exactly the two arguments `set` and `filter`. -/
theorem zero_length_tokens_discarded (line : CStr) :
    (∃ argv, config_parse_string_argv line = some argv ∧ ∀ t ∈ argv, 1 ≤ t.length)
      ∧ config_parse_string_argv "set filter \"\"".toList
        = some ["set".toList, "filter".toList] := by
  refine ⟨?_, by decide⟩
  obtain ⟨argv, hargv⟩ :=
    scan_run_isSome _ ⟨line.takeWhile (fun c => c ≠ '\n'), []⟩ (Nat.lt_succ_self _)
  refine ⟨argv, hargv, ?_⟩
  intro t ht
  have h := (scan_loop_argv _ _ argv hargv (by simp)).1 t ht
  exact List.length_pos.mpr h

/-- C16. Default values: the store made by `default_config` has
`nc_timeout` 1000, `filter` `status:pending`, `sort` `n`, `task_format`
`%3n (%-10p) %d`, `debug` false, no version and no log handle. -/
theorem default_values :
    conf_get_nc_timeout default_config = 1000
      ∧ conf_get_filter default_config = some "status:pending".toList
      ∧ conf_get_sort default_config = some "n".toList
      ∧ conf_get_task_format default_config = some "%3n (%-10p) %d".toList
      ∧ conf_get_debug default_config = false
      ∧ default_config.version = none
      ∧ conf_get_logfd default_config = none := by
  decide

/-- C17. Setting twice: for every store and all strings `a`, `b`, the call
`conf_set_filter` with `a` and then with `b` leaves `conf_get_filter` equal to
`b` and gives the same store as the single call with `b`; a call changes no
field other than `filter` and releases exactly the string the store owned
before it, once: the first call the old `filter`, the second call `a`. The
same holds for `conf_set_sort` and `conf_set_task_format`; the options `-f`
and `-s` of `main` are these calls with the option argument as it is. -/
theorem set_twice_keeps_second (conf : config) (old a b : CStr) :
    (conf_set_filter { conf with filter := some old } a
          = ({ conf with filter := some a }, [Event.free old])
        ∧ conf_set_filter (conf_set_filter conf a).1 b
          = ({ conf with filter := some b }, [Event.free a])
        ∧ (conf_set_filter (conf_set_filter conf a).1 b).1 = (conf_set_filter conf b).1
        ∧ conf_get_filter (conf_set_filter (conf_set_filter conf a).1 b).1 = some b)
      ∧ (conf_set_sort { conf with sort := some old } a
          = ({ conf with sort := some a }, [Event.free old])
        ∧ conf_set_sort (conf_set_sort conf a).1 b
          = ({ conf with sort := some b }, [Event.free a])
        ∧ (conf_set_sort (conf_set_sort conf a).1 b).1 = (conf_set_sort conf b).1
        ∧ conf_get_sort (conf_set_sort (conf_set_sort conf a).1 b).1 = some b)
      ∧ (conf_set_task_format { conf with task_format := some old } a
          = ({ conf with task_format := some a }, [Event.free old])
        ∧ conf_set_task_format (conf_set_task_format conf a).1 b
          = ({ conf with task_format := some b }, [Event.free a])
        ∧ (conf_set_task_format (conf_set_task_format conf a).1 b).1
          = (conf_set_task_format conf b).1
        ∧ conf_get_task_format (conf_set_task_format (conf_set_task_format conf a).1 b).1
          = some b)
      ∧ (main_option 'f' a conf = conf_set_filter conf a
        ∧ main_option 's' a conf = conf_set_sort conf a) := by
  simp [conf_set_filter, conf_set_sort, conf_set_task_format, check_free, conf_get_filter,
    conf_get_sort, conf_get_task_format, main_option]

/-- C18 (the code at the failing input). With a version in the store and the
output stream 7, which is not the standard output, `dump_config_file` writes
the lines `debug`, `nc_timeout`, `filter`, `sort`, `task_format` to stream 7
and the line `version` to the standard output. -/
theorem dump_writes_version_to_stdout :
    dump_config_file none 7 { default_config with version := some (2, 5, 1) }
        = ({ default_config with version := some (2, 5, 1) },
            [Event.write 7 "debug:\t\t0\n".toList,
             Event.write 7 "nc_timeout:\t1000\n".toList,
             Event.write stdout "version:\t2.5.1\n".toList,
             Event.write 7 "filter:\t\t'status:pending'\n".toList,
             Event.write 7 "sort:\t\t'n'\n".toList,
             Event.write 7 "task_format:\t'%3n (%-10p) %d'\n".toList])
      ∧ stdout ≠ 7 := by
  decide

/-- C19. Success: for every store and line, `config_parse_string` returns, and
the code it returns is `CONFIG_SUCCESS` if and only if the arguments of the
line are exactly three, the first `set` and the second one of `nc_timeout`,
`logpath`, `filter`, `sort`, `task_format`. In particular the lines
`set logpath /no/such/dir/log`, when the open fails, and `set nc_timeout abc`
return `CONFIG_SUCCESS`. -/
theorem success_characterisation (fopen : CStr → Option FILE) (conf : config) (line : CStr) :
    (∃ argv r, config_parse_string_argv line = some argv
        ∧ config_parse_string fopen conf line = some r
        ∧ (r.ret = CONFIG_SUCCESS ↔
            ∃ k v, argv = ["set".toList, k, v] ∧ (k = "nc_timeout".toList ∨ k = "logpath".toList
              ∨ k = "filter".toList ∨ k = "sort".toList ∨ k = "task_format".toList)))
      ∧ Option.map Outcome.ret
          (config_parse_string (fun _ => none) conf "set logpath /no/such/dir/log".toList)
        = some CONFIG_SUCCESS
      ∧ Option.map Outcome.ret
          (config_parse_string fopen conf "set nc_timeout abc".toList) = some CONFIG_SUCCESS := by
  refine ⟨?_, ?_, ?_⟩
  · obtain ⟨argv, hargv⟩ :=
      scan_run_isSome _ ⟨line.takeWhile (fun c => c ≠ '\n'), []⟩ (Nat.lt_succ_self _)
    have hargv1 : config_parse_string_argv line = some argv := hargv
    cases argv with
    | nil =>
      refine ⟨[], ⟨1, conf, []⟩, hargv1, by simp only [config_parse_string, hargv1], ?_⟩
      simp [CONFIG_SUCCESS]
    | cons a0 rest =>
      by_cases hset : a0 = "set".toList
      · refine ⟨a0 :: rest, config_set fopen conf rest, hargv1,
          by simp only [config_parse_string, hargv1, if_pos hset], ?_⟩
        rw [config_set_success_iff, hset]
        constructor
        · rintro ⟨k, v, rfl, hk⟩
          exact ⟨k, v, rfl, hk⟩
        · rintro ⟨k, v, e, hk⟩
          refine ⟨k, v, ?_, hk⟩
          simpa using e
      · refine ⟨a0 :: rest, ⟨1, conf, []⟩, hargv1,
          by simp only [config_parse_string, hargv1, if_neg hset], ?_⟩
        constructor
        · intro h
          simp [CONFIG_SUCCESS] at h
        · rintro ⟨k, v, e, _⟩
          have : a0 = "set".toList := (List.cons.inj e).1
          exact absurd this hset
  · have e : config_parse_string_argv "set logpath /no/such/dir/log".toList
        = some ["set".toList, "logpath".toList, "/no/such/dir/log".toList] := by decide
    simp only [config_parse_string, e, if_true, Option.map_some']
    exact congrArg some ((config_set_success_iff _ conf _).mpr ⟨_, _, rfl, Or.inr (Or.inl rfl)⟩)
  · have e : config_parse_string_argv "set nc_timeout abc".toList
        = some ["set".toList, "nc_timeout".toList, "abc".toList] := by decide
    simp only [config_parse_string, e, if_true, Option.map_some']
    exact congrArg some ((config_set_success_iff fopen conf _).mpr ⟨_, _, rfl, Or.inl rfl⟩)

/-- C11 (counterexample). On a stream of `2^30 - 45` characters `a` without a
newline, `linelen` is doubled 22 times, from 256 to `2^30`, and the next
continuation read makes the code compute `2*linelen`, which overflows `int`:
the behaviour is undefined and no line is handed over. -/
theorem long_line_overflows :
    config_parse_file (fun _ => none) default_config ⟨List.replicate 1073741779 'a', false⟩
      = Run.overflow :=
  config_parse_file_overflow (fun _ => none) default_config 1073741779 (le_refl _)

/-- C11 (amended). Long-line assembly: for every stream content without NUL
bytes in which every logical line has at most `2^30 - 46` (1073741778)
characters, however long the stream is, `config_parse_file` returns
`CONFIG_SUCCESS` and hands to `config_parse_string` exactly the logical lines
of the content, in order, each once, whole and unmixed. -/
theorem long_line_assembly (fopen : CStr → Option FILE) (conf : config) (content : List Char)
    (_hnul : '\x00' ∉ content)
    (hlen : ∀ l ∈ logical_lines content, l.length ≤ 1073741778) :
    ∃ st, config_parse_file fopen conf ⟨content, false⟩ = Run.done (CONFIG_SUCCESS, st)
      ∧ st.handed = logical_lines content := by
  obtain ⟨st, h1, h2⟩ := config_parse_file_loop_spec fopen (content.length + 1) 256 0
    ⟨content, false⟩ ⟨conf, [], []⟩ (Nat.lt_succ_self _) (by omega) (by omega) (by norm_num) hlen
  refine ⟨st, ?_, ?_⟩
  · simp only [config_parse_file, h1]
  · rw [h2]
    rfl

/-- C11 (witness). A stream of one line `set filter ` followed by 10000
characters `x` and a newline, which is handed over as that one line; a stream
of three lines of which the second is empty and the last is not terminated;
and a stream of 2000000000 empty lines, which is longer than `2^30`
characters. -/
theorem long_line_assembly_witness :
    (logical_lines ("set filter ".toList ++ List.replicate 10000 'x' ++ ['\n'])
          = ["set filter ".toList ++ List.replicate 10000 'x' ++ ['\n']]
        ∧ logical_lines "set sort u\n\nset filter b".toList
          = ["set sort u\n".toList, "\n".toList, "set filter b".toList]
        ∧ logical_lines (List.replicate 2000000000 '\n') = List.replicate 2000000000 ['\n'])
      ∧ (∃ st, config_parse_file (fun _ => none) default_config
            ⟨"set filter ".toList ++ List.replicate 10000 'x' ++ ['\n'], false⟩
            = Run.done (CONFIG_SUCCESS, st)
          ∧ st.handed = logical_lines ("set filter ".toList ++ List.replicate 10000 'x' ++ ['\n']))
      ∧ (∃ st, config_parse_file (fun _ => none) default_config
            ⟨"set sort u\n\nset filter b".toList, false⟩ = Run.done (CONFIG_SUCCESS, st)
          ∧ st.handed = logical_lines "set sort u\n\nset filter b".toList)
      ∧ (∃ st, config_parse_file (fun _ => none) default_config
            ⟨List.replicate 2000000000 '\n', false⟩ = Run.done (CONFIG_SUCCESS, st)
          ∧ st.handed = logical_lines (List.replicate 2000000000 '\n')) := by
  have hmem : '\x00' ∉ "set filter ".toList ++ List.replicate 10000 'x' ++ ['\n'] := by
    intro h
    rcases List.mem_append.mp h with h1 | h1
    · rcases List.mem_append.mp h1 with h2 | h2
      · exact absurd h2 (by decide)
      · exact absurd (List.eq_of_mem_replicate h2) (by decide)
    · exact absurd (List.mem_singleton.mp h1) (by decide)
  have hnl : '\n' ∉ "set filter ".toList ++ List.replicate 10000 'x' := by
    intro h
    rcases List.mem_append.mp h with h2 | h2
    · exact absurd h2 (by decide)
    · exact absurd (List.eq_of_mem_replicate h2) (by decide)
  have hone : logical_lines ("set filter ".toList ++ List.replicate 10000 'x' ++ ['\n'])
      = ["set filter ".toList ++ List.replicate 10000 'x' ++ ['\n']] := by
    have h := logical_lines_from_one_line ("set filter ".toList ++ List.replicate 10000 'x')
      hnl []
    rw [List.nil_append] at h
    exact h
  have hlen : ∀ l ∈ logical_lines ("set filter ".toList ++ List.replicate 10000 'x' ++ ['\n']),
      l.length ≤ 1073741778 := by
    intro l hl
    rw [hone, List.mem_singleton] at hl
    have h11 : "set filter ".toList.length = 11 := rfl
    rw [hl, List.length_append, List.length_append, List.length_replicate,
      List.length_singleton, h11]
    omega
  have hmany : logical_lines (List.replicate 2000000000 '\n')
      = List.replicate 2000000000 ['\n'] := logical_lines_newlines 2000000000
  have hmanylen : ∀ l ∈ logical_lines (List.replicate 2000000000 '\n'),
      l.length ≤ 1073741778 := by
    intro l hl
    rw [hmany] at hl
    rw [List.eq_of_mem_replicate hl]
    decide
  exact ⟨⟨hone, by decide, hmany⟩,
    long_line_assembly (fun _ => none) default_config _ hmem hlen,
    long_line_assembly (fun _ => none) default_config "set sort u\n\nset filter b".toList
      (by decide) (by decide),
    long_line_assembly (fun _ => none) default_config (List.replicate 2000000000 '\n')
      (fun h => absurd (List.eq_of_mem_replicate h) (by decide)) hmanylen⟩

end Tasknc
